import Mathlib

/-!
# Realtime transcription example — verification development

Shallow embedding of `examples/python/realtime_transcription.py`:
the chunk pacer, the VAD-dependent outbound message sequence, the
base64 audio payload encoding, and the receive loop that aggregates
`transcript.delta` events into a final transcript.

Bytes are modelled as `Nat` values (< 256 where it matters), byte
buffers as `List Nat`, JSON string fields as `String` / `Option String`.

Source mapping:
- `chunkBytesOf`, `sliceChunks`, `chunkPacer`: lines 65–66 and 72–73.
- `b64encode` / `b64decode`: the `base64.b64encode` call at line 74
  (standard-library RFC 4648 base64, modelled here).
- `Vad`, `vadOf`, `OutMsg`, `sendSequence`: lines 36–83.
- `InMsg`, `pyOr`, `extractText`, `receiveLoop`, `Outcome`: lines 86–104.
-/

namespace RT

/-! ## Definitions -/

/-- Chunk size in bytes: `max(1, (sampleRate * 2 * chunkMs) / 1000)`,
exactly as computed at source lines 65–66 (channels = 1, bit depth = 2 bytes:
`bytes_per_second = sr * 2; chunk_bytes = max(1, bytes_per_second * CHUNK_MS // 1000)`). -/
def chunkBytesOf (sr chunkMs : Nat) : Nat :=
  max 1 ((sr * 2) * chunkMs / 1000)

/-- Fuel-indexed slicing loop: takes `k + 1` elements at a time.  The fuel is
only a termination device; with `fuel ≥ bs.length` it performs exactly the
`for i in range(0, len(pcm_bytes), chunk_bytes): pcm_bytes[i : i + chunk_bytes]`
loop of source lines 72–73 with chunk size `k + 1`. -/
def sliceChunksF : Nat → Nat → List Nat → List (List Nat)
  | 0, _, _ => []
  | _ + 1, _, [] => []
  | fuel + 1, k, b :: bs => (b :: bs.take k) :: sliceChunksF fuel k (bs.drop k)

/-- Slice a byte buffer into chunks of `k + 1` bytes (the last chunk may be
shorter).  The `+ 1` encodes that the source's chunk size is always ≥ 1. -/
def sliceChunks (k : Nat) (bs : List Nat) : List (List Nat) :=
  sliceChunksF bs.length k bs

/-- Chunk pacer of the source: slice the PCM byte buffer into pieces of
`chunkBytesOf sr chunkMs` bytes (which is always ≥ 1). -/
def chunkPacer (bs : List Nat) (sr chunkMs : Nat) : List (List Nat) :=
  sliceChunks (chunkBytesOf sr chunkMs - 1) bs

/-- Character code of the base64 digit for a sextet `n < 64`
(`A`–`Z`, `a`–`z`, `0`–`9`, `+`, `/`). -/
def encChar (n : Nat) : Nat :=
  if n < 26 then 65 + n
  else if n < 52 then 97 + (n - 26)
  else if n < 62 then 48 + (n - 52)
  else if n = 62 then 43
  else 47

/-- Sextet value of a base64 digit character code (inverse of `encChar`). -/
def decChar (c : Nat) : Nat :=
  if 65 ≤ c ∧ c ≤ 90 then c - 65
  else if 97 ≤ c ∧ c ≤ 122 then 26 + (c - 97)
  else if 48 ≤ c ∧ c ≤ 57 then 52 + (c - 48)
  else if c = 43 then 62
  else if c = 47 then 63
  else 0

/-- Standard RFC 4648 base64 encoding of a byte list, with `=` (code 61)
padding, modelling the `base64.b64encode(chunk)` call at source line 74. -/
def b64encode : List Nat → List Nat
  | b0 :: b1 :: b2 :: rest =>
    encChar ((b0 * 65536 + b1 * 256 + b2) / 262144)
      :: encChar ((b0 * 65536 + b1 * 256 + b2) / 4096 % 64)
      :: encChar ((b0 * 65536 + b1 * 256 + b2) / 64 % 64)
      :: encChar ((b0 * 65536 + b1 * 256 + b2) % 64)
      :: b64encode rest
  | [b0, b1] =>
    [encChar ((b0 * 1024 + b1 * 4) / 4096),
     encChar ((b0 * 1024 + b1 * 4) / 64 % 64),
     encChar ((b0 * 1024 + b1 * 4) % 64), 61]
  | [b0] =>
    [encChar (b0 * 16 / 64), encChar (b0 * 16 % 64), 61, 61]
  | [] => []

/-- Standard base64 decoding of a well-formed base64 character-code list. -/
def b64decode : List Nat → List Nat
  | c0 :: c1 :: c2 :: c3 :: rest =>
    if c2 = 61 then
      [decChar c0 * 4 + decChar c1 / 16]
    else if c3 = 61 then
      [(decChar c0 * 4096 + decChar c1 * 64 + decChar c2) / 1024,
       (decChar c0 * 4096 + decChar c1 * 64 + decChar c2) / 4 % 256]
    else
      (decChar c0 * 262144 + decChar c1 * 4096 + decChar c2 * 64 + decChar c3) / 65536
        :: (decChar c0 * 262144 + decChar c1 * 4096 + decChar c2 * 64 + decChar c3) / 256 % 256
        :: (decChar c0 * 262144 + decChar c1 * 4096 + decChar c2 * 64 + decChar c3) % 256
        :: b64decode rest
  | _ => []

/-- VAD policy variant carried inside `session.update`. -/
inductive Vad where
  | manual : Vad
  | serverVad (silence_duration_ms prefix_padding_ms : Nat) : Vad
deriving DecidableEq

/-- Vad object sent in `session.update` as a function of the `VAD_TYPE`
string (source lines 46–54): `server_vad` parameters `(500, 300)` when the
string is exactly `"server_vad"`, and `{"type": "manual"}` for ANY other
value of `VAD_TYPE`. -/
def vadOf (vadType : String) : Vad :=
  if vadType = "server_vad" then Vad.serverVad 500 300 else Vad.manual

/-- Outbound protocol messages of the session.  The constant
`model`/`prompt`/`language` fields of `session.update` do not vary in the
source and are omitted; the vad object is carried. -/
inductive OutMsg where
  | sessionUpdate (vad : Vad) : OutMsg
  | activityStart : OutMsg
  | append (audio : List Nat) : OutMsg
  | activityEnd : OutMsg
  | commit : OutMsg
deriving DecidableEq

/-- Complete outbound message sequence of one session (source lines 36–83):
one `session.update` (lines 38–58); `input_audio.activity_start` only when
`VAD_TYPE == "manual"` (lines 68–69); one `input_audio.append` per chunk
with the base64 payload (lines 72–77); then `activity_end` + `commit`
(manual, lines 79–81) or just `commit` (lines 82–83). -/
def sendSequence (vadType : String) (pcmBytes : List Nat) (sr chunkMs : Nat) :
    List OutMsg :=
  [OutMsg.sessionUpdate (vadOf vadType)]
    ++ (if vadType = "manual" then [OutMsg.activityStart] else [])
    ++ (chunkPacer pcmBytes sr chunkMs).map (fun c => OutMsg.append (b64encode c))
    ++ (if vadType = "manual" then [OutMsg.activityEnd, OutMsg.commit]
        else [OutMsg.commit])

/-- Base64 payloads of the `input_audio.append` messages, in send order. -/
def appendPayloads : List OutMsg → List (List Nat)
  | [] => []
  | OutMsg.append a :: rest => a :: appendPayloads rest
  | _ :: rest => appendPayloads rest

/-- One inbound item: either a message that fails `json.loads` (which
raises `json.JSONDecodeError`, uncaught by the `try` at line 87 that only
catches `websockets.ConnectionClosed`) or a decoded event with a `type`
tag, an optional top-level `text` field and an optional `data.text` field. -/
inductive InMsg where
  | malformed : InMsg
  | event (etype : String) (text : Option String) (dataText : Option String) : InMsg
deriving DecidableEq

/-- Python truthiness fallback `a or b` for an optional string field
(source lines 92 and 96): `None` and `""` both fall through to the fallback. -/
def pyOr (a : Option String) (b : String) : String :=
  match a with
  | none => b
  | some t => if t = "" then b else t

/-- Text extraction of source lines 92 and 96:
`evt.get("text") or (evt.get("data") or {}).get("text") or ""`. -/
def extractText (text dataText : Option String) : String :=
  pyOr text (pyOr dataText "")

/-- Extraction rule as claim C9 literally states it: a present top-level
`text` field takes precedence (even when empty) over `data.text`; absence
of both yields `""`.  Stated for comparison with `extractText`. -/
def claimExtract (text dataText : Option String) : String :=
  match text with
  | some t => t
  | none =>
    match dataText with
    | some u => u
    | none => ""

/-- Extraction rule of the amended claim C9: the top-level `text` field
when present AND non-empty; otherwise `data.text` when present AND
non-empty; otherwise the empty string. -/
def amendedExtract (text dataText : Option String) : String :=
  match text with
  | some t =>
    if t ≠ "" then t
    else
      match dataText with
      | some u => if u ≠ "" then u else ""
      | none => ""
  | none =>
    match dataText with
    | some u => if u ≠ "" then u else ""
    | none => ""

/-- How one session's receive loop ends, observationally. -/
inductive Outcome where
  | completed (transcript : String) : Outcome
  | closed (partialText : String) : Outcome
  | crashed (partialText : String) : Outcome
deriving DecidableEq

/-- Receive loop of source lines 86–104, with `full` the accumulated
transcript buffer.  On `transcript.delta`, append the extracted text and
continue (lines 91–94); on `transcript.done`, finalize
(`if not full and text: full = text`, lines 95–100) and break; on `error`,
`warning`, `rate_limits.updated` print the event and continue (lines
101–102); on any other tag, do nothing and continue.  Running out of
inbound messages models the transport closing: `ws.recv()` raises
`websockets.ConnectionClosed`, caught at lines 103–104 by `pass`
(`closed`); an undecodable message raises out of the loop (`crashed`). -/
def receiveLoop : List InMsg → String → Outcome
  | [], full => Outcome.closed full
  | InMsg.malformed :: _, full => Outcome.crashed full
  | InMsg.event t txt dtxt :: rest, full =>
    if t = "transcript.delta" then
      receiveLoop rest (full ++ extractText txt dtxt)
    else if t = "transcript.done" then
      Outcome.completed
        (if full = "" ∧ extractText txt dtxt ≠ "" then extractText txt dtxt else full)
    else
      receiveLoop rest full

/-- Concatenation, in arrival order, of the texts of the
`transcript.delta` events of a message list. -/
def deltaConcat : List InMsg → String
  | [] => ""
  | InMsg.malformed :: rest => deltaConcat rest
  | InMsg.event t txt dtxt :: rest =>
    (if t = "transcript.delta" then extractText txt dtxt else "") ++ deltaConcat rest

/-- Message classification helper: is this a decoded `transcript.done` event? -/
def isDoneMsg : InMsg → Bool
  | InMsg.event t _ _ => t = "transcript.done"
  | InMsg.malformed => false

/-- Message classification helper: is this an undecodable message? -/
def isMalformed : InMsg → Bool
  | InMsg.malformed => true
  | _ => false

/-- Observational success test on an outcome. -/
def Outcome.isCompleted : Outcome → Bool
  | Outcome.completed _ => true
  | _ => false

/-! ## Chunk pacer lemmas -/

theorem chunkBytesOf_pos (sr chunkMs : Nat) : 1 ≤ chunkBytesOf sr chunkMs :=
  Nat.le_max_left _ _

theorem sliceChunksF_nil (fuel k : Nat) : sliceChunksF fuel k [] = [] := by
  cases fuel <;> rfl

/-- The slicing loop does not depend on the fuel as long as the fuel is
at least the length of the buffer. -/
theorem sliceChunksF_fuel (k : Nat) :
    ∀ (f1 f2 : Nat) (bs : List Nat), bs.length ≤ f1 → bs.length ≤ f2 →
      sliceChunksF f1 k bs = sliceChunksF f2 k bs := by
  intro f1
  induction f1 with
  | zero =>
    intro f2 bs h1 h2
    have : bs = [] := List.eq_nil_of_length_eq_zero (Nat.le_zero.mp h1)
    subst this
    simp [sliceChunksF_nil]
  | succ n ih =>
    intro f2 bs h1 h2
    cases bs with
    | nil => simp [sliceChunksF_nil]
    | cons b bs =>
      cases f2 with
      | zero => exact absurd h2 (by simp)
      | succ m =>
        simp only [sliceChunksF]
        have hb : bs.length ≤ n := by simpa using h1
        have hb2 : bs.length ≤ m := by simpa using h2
        have hd : (bs.drop k).length ≤ bs.length := by
          simp [List.length_drop]
        exact congrArg _ (ih m (bs.drop k) (Nat.le_trans hd hb) (Nat.le_trans hd hb2))

/-- Unfolding equation for `sliceChunks` on a non-empty buffer. -/
theorem sliceChunks_cons (k : Nat) (b : Nat) (bs : List Nat) :
    sliceChunks k (b :: bs) = (b :: bs.take k) :: sliceChunks k (bs.drop k) := by
  simp only [sliceChunks, List.length_cons, sliceChunksF]
  refine congrArg _ (sliceChunksF_fuel k bs.length (bs.drop k).length (bs.drop k) ?_ le_rfl)
  simp [List.length_drop]

theorem sliceChunks_nil (k : Nat) : sliceChunks k [] = [] := rfl

/-- Concatenating the chunks restores the buffer: slicing is strictly
sequential, with no gaps and no overlap. -/
theorem sliceChunksF_flatten (k : Nat) :
    ∀ (fuel : Nat) (bs : List Nat), bs.length ≤ fuel →
      (sliceChunksF fuel k bs).flatten = bs := by
  intro fuel
  induction fuel with
  | zero =>
    intro bs h
    have : bs = [] := List.eq_nil_of_length_eq_zero (Nat.le_zero.mp h)
    subst this; rfl
  | succ n ih =>
    intro bs h
    cases bs with
    | nil => rfl
    | cons b bs =>
      simp only [sliceChunksF, List.flatten_cons]
      have hb : bs.length ≤ n := by simpa using h
      have hd : (bs.drop k).length ≤ n := by
        simp [List.length_drop]; omega
      rw [ih (bs.drop k) hd]
      simp [List.take_append_drop]

theorem sliceChunks_flatten (k : Nat) (bs : List Nat) :
    (sliceChunks k bs).flatten = bs :=
  sliceChunksF_flatten k bs.length bs le_rfl

/-- The number of chunks is `⌈length / (k+1)⌉`, written `(length + k) / (k+1)`. -/
theorem sliceChunksF_length (k : Nat) :
    ∀ (fuel : Nat) (bs : List Nat), bs.length ≤ fuel →
      (sliceChunksF fuel k bs).length = (bs.length + k) / (k + 1) := by
  intro fuel
  induction fuel with
  | zero =>
    intro bs h
    have : bs = [] := List.eq_nil_of_length_eq_zero (Nat.le_zero.mp h)
    subst this
    simp [sliceChunksF, Nat.div_eq_of_lt (Nat.lt_succ_self k)]
  | succ n ih =>
    intro bs h
    cases bs with
    | nil => simp [sliceChunksF, Nat.div_eq_of_lt (Nat.lt_succ_self k)]
    | cons b bs =>
      simp only [sliceChunksF, List.length_cons]
      have hb : bs.length ≤ n := by simpa using h
      have hd : (bs.drop k).length ≤ n := by
        simp [List.length_drop]; omega
      rw [ih (bs.drop k) hd]
      simp only [List.length_drop]
      have h1 : bs.length + 1 + k = bs.length + (k + 1) := by omega
      rw [h1, Nat.add_div_right _ (Nat.succ_pos k)]
      simp only [Nat.succ_eq_add_one]
      rcases Nat.lt_or_ge bs.length k with hlt | hge
      · have e1 : bs.length - k = 0 := Nat.sub_eq_zero_of_le (Nat.le_of_lt hlt)
        rw [e1]
        simp only [Nat.zero_add]
        rw [Nat.div_eq_of_lt (Nat.lt_succ_self k),
          Nat.div_eq_of_lt (Nat.lt_succ_of_lt hlt)]
      · have e1 : bs.length - k + k = bs.length := Nat.sub_add_cancel hge
        rw [e1]

/-- Number of chunks for the real slicer. -/
theorem sliceChunks_length (k : Nat) (bs : List Nat) :
    (sliceChunks k bs).length = (bs.length + k) / (k + 1) :=
  sliceChunksF_length k bs.length bs le_rfl

/-- Every chunk has at most `k + 1` bytes. -/
theorem sliceChunksF_le (k : Nat) :
    ∀ (fuel : Nat) (bs : List Nat), ∀ c ∈ sliceChunksF fuel k bs, c.length ≤ k + 1 := by
  intro fuel
  induction fuel with
  | zero => intro bs c hc; simp [sliceChunksF] at hc
  | succ n ih =>
    intro bs c hc
    cases bs with
    | nil => simp [sliceChunksF] at hc
    | cons b bs =>
      simp only [sliceChunksF, List.mem_cons] at hc
      rcases hc with rfl | hc
      · simp only [List.length_cons, List.length_take]
        omega
      · exact ih (bs.drop k) c hc

theorem sliceChunks_le (k : Nat) (bs : List Nat) :
    ∀ c ∈ sliceChunks k bs, c.length ≤ k + 1 :=
  sliceChunksF_le k bs.length bs

theorem sliceChunksF_ne_nil (k n : Nat) (b : Nat) (bs : List Nat) :
    sliceChunksF (n + 1) k (b :: bs) ≠ [] := by
  simp [sliceChunksF]

/-- Every chunk except possibly the last has exactly `k + 1` bytes. -/
theorem sliceChunksF_dropLast (k : Nat) :
    ∀ (fuel : Nat) (bs : List Nat), bs.length ≤ fuel →
      ∀ c ∈ (sliceChunksF fuel k bs).dropLast, c.length = k + 1 := by
  intro fuel
  induction fuel with
  | zero => intro bs h c hc; simp [sliceChunksF] at hc
  | succ n ih =>
    intro bs h c hc
    cases bs with
    | nil => simp [sliceChunksF] at hc
    | cons b bs =>
      have hb : bs.length ≤ n := by simpa using h
      simp only [sliceChunksF] at hc
      by_cases hdrop : bs.drop k = []
      · rw [hdrop, sliceChunksF_nil] at hc
        simp at hc
      · have hlen1 : 0 < (bs.drop k).length := List.length_pos.mpr hdrop
        have hkbs : k < bs.length := by
          have := hlen1
          simp only [List.length_drop] at this
          omega
        have hdn : (bs.drop k).length ≤ n := by
          simp only [List.length_drop]; omega
        obtain ⟨m, rfl⟩ : ∃ m, n = m + 1 := ⟨n - 1, by omega⟩
        have hne : sliceChunksF (m + 1) k (bs.drop k) ≠ [] := by
          obtain ⟨d, ds, hds⟩ := List.exists_cons_of_ne_nil hdrop
          rw [hds]
          exact sliceChunksF_ne_nil k m d ds
        rw [List.dropLast_cons_of_ne_nil hne] at hc
        rcases List.mem_cons.mp hc with rfl | hc
        · simp only [List.length_cons, List.length_take]
          omega
        · exact ih (bs.drop k) hdn c hc

theorem sliceChunks_dropLast (k : Nat) (bs : List Nat) :
    ∀ c ∈ (sliceChunks k bs).dropLast, c.length = k + 1 :=
  sliceChunksF_dropLast k bs.length bs le_rfl

/-- When `k + 1` divides the buffer length, every chunk is full. -/
theorem sliceChunksF_dvd (k : Nat) :
    ∀ (fuel : Nat) (bs : List Nat), bs.length ≤ fuel → (k + 1) ∣ bs.length →
      ∀ c ∈ sliceChunksF fuel k bs, c.length = k + 1 := by
  intro fuel
  induction fuel with
  | zero => intro bs h hdvd c hc; simp [sliceChunksF] at hc
  | succ n ih =>
    intro bs h hdvd c hc
    cases bs with
    | nil => simp [sliceChunksF] at hc
    | cons b bs =>
      have hb : bs.length ≤ n := by simpa using h
      rcases hdvd with ⟨m, hm⟩
      simp only [List.length_cons] at hm
      have hge : k ≤ bs.length := by
        cases m with
        | zero => omega
        | succ m => simp only [Nat.mul_succ] at hm; omega
      simp only [sliceChunksF, List.mem_cons] at hc
      rcases hc with rfl | hc
      · simp only [List.length_cons, List.length_take]; omega
      · refine ih (bs.drop k) (by simp only [List.length_drop]; omega) ?_ c hc
        refine ⟨m - 1, ?_⟩
        simp only [List.length_drop]
        cases m with
        | zero => omega
        | succ m => simp only [Nat.mul_succ, Nat.succ_sub_one] at hm ⊢; omega

theorem sliceChunks_dvd (k : Nat) (bs : List Nat) (hdvd : (k + 1) ∣ bs.length) :
    ∀ c ∈ sliceChunks k bs, c.length = k + 1 :=
  sliceChunksF_dvd k bs.length bs le_rfl hdvd

/-! ## Base64 lemmas -/

theorem decChar_encChar : ∀ n : Nat, n < 64 → decChar (encChar n) = n := by
  decide

theorem encChar_ne_pad : ∀ n : Nat, n < 64 → encChar n ≠ 61 := by
  decide

theorem b64decode_pad2 (c0 c1 : Nat) :
    b64decode [c0, c1, 61, 61] = [decChar c0 * 4 + decChar c1 / 16] := by
  simp [b64decode]

theorem b64decode_pad1 (c0 c1 c2 : Nat) (h : c2 ≠ 61) :
    b64decode [c0, c1, c2, 61] =
      [(decChar c0 * 4096 + decChar c1 * 64 + decChar c2) / 1024,
       (decChar c0 * 4096 + decChar c1 * 64 + decChar c2) / 4 % 256] := by
  simp [b64decode, h]

theorem b64decode_full (c0 c1 c2 c3 : Nat) (h2 : c2 ≠ 61) (h3 : c3 ≠ 61)
    (rest : List Nat) :
    b64decode (c0 :: c1 :: c2 :: c3 :: rest) =
      (decChar c0 * 262144 + decChar c1 * 4096 + decChar c2 * 64 + decChar c3) / 65536
        :: (decChar c0 * 262144 + decChar c1 * 4096 + decChar c2 * 64 + decChar c3) / 256 % 256
        :: (decChar c0 * 262144 + decChar c1 * 4096 + decChar c2 * 64 + decChar c3) % 256
        :: b64decode rest := by
  simp [b64decode, h2, h3]

/-- Base64 decode is a left inverse of encode on byte lists. -/
theorem b64decode_encode : ∀ (bs : List Nat), (∀ b ∈ bs, b < 256) →
    b64decode (b64encode bs) = bs
  | [], _ => rfl
  | [b0], h => by
    have hb0 : b0 < 256 := h b0 (by simp)
    simp only [b64encode]
    rw [b64decode_pad2]
    rw [decChar_encChar (b0 * 16 / 64) (by omega),
      decChar_encChar (b0 * 16 % 64) (by omega)]
    congr 1
    omega
  | [b0, b1], h => by
    have hb0 : b0 < 256 := h b0 (by simp)
    have hb1 : b1 < 256 := h b1 (by simp)
    simp only [b64encode]
    rw [b64decode_pad1 _ _ _ (encChar_ne_pad ((b0 * 1024 + b1 * 4) % 64) (by omega))]
    rw [decChar_encChar ((b0 * 1024 + b1 * 4) / 4096) (by omega),
      decChar_encChar ((b0 * 1024 + b1 * 4) / 64 % 64) (by omega),
      decChar_encChar ((b0 * 1024 + b1 * 4) % 64) (by omega)]
    have e1 : (b0 * 1024 + b1 * 4) / 4096 * 4096
        + (b0 * 1024 + b1 * 4) / 64 % 64 * 64 + (b0 * 1024 + b1 * 4) % 64
        = b0 * 1024 + b1 * 4 := by omega
    rw [e1]
    congr 1
    · omega
    · congr 1
      omega
  | b0 :: b1 :: b2 :: rest, h => by
    have hb0 : b0 < 256 := h b0 (by simp)
    have hb1 : b1 < 256 := h b1 (by simp)
    have hb2 : b2 < 256 := h b2 (by simp)
    simp only [b64encode]
    rw [b64decode_full _ _ _ _
      (encChar_ne_pad ((b0 * 65536 + b1 * 256 + b2) / 64 % 64) (by omega))
      (encChar_ne_pad ((b0 * 65536 + b1 * 256 + b2) % 64) (by omega))]
    rw [decChar_encChar ((b0 * 65536 + b1 * 256 + b2) / 262144) (by omega),
      decChar_encChar ((b0 * 65536 + b1 * 256 + b2) / 4096 % 64) (by omega),
      decChar_encChar ((b0 * 65536 + b1 * 256 + b2) / 64 % 64) (by omega),
      decChar_encChar ((b0 * 65536 + b1 * 256 + b2) % 64) (by omega)]
    have e1 : (b0 * 65536 + b1 * 256 + b2) / 262144 * 262144
        + (b0 * 65536 + b1 * 256 + b2) / 4096 % 64 * 4096
        + (b0 * 65536 + b1 * 256 + b2) / 64 % 64 * 64
        + (b0 * 65536 + b1 * 256 + b2) % 64
        = b0 * 65536 + b1 * 256 + b2 := by omega
    rw [e1]
    have ih := b64decode_encode rest (fun x hx => h x (by simp [hx]))
    rw [ih]
    congr 1
    · omega
    · congr 1
      · omega
      · congr 1
        omega

/-! ## Outbound sequence lemmas -/

theorem vadOf_manual : vadOf "manual" = Vad.manual := by decide

theorem vadOf_server : vadOf "server_vad" = Vad.serverVad 500 300 := by decide

theorem appendPayloads_append (l1 l2 : List OutMsg) :
    appendPayloads (l1 ++ l2) = appendPayloads l1 ++ appendPayloads l2 := by
  induction l1 with
  | nil => rfl
  | cons m rest ih => cases m <;> simp [appendPayloads, ih]

theorem appendPayloads_map (f : List Nat → List Nat) (l : List (List Nat)) :
    appendPayloads (l.map fun c => OutMsg.append (f c)) = l.map f := by
  induction l with
  | nil => rfl
  | cons c cs ih => simp [appendPayloads, ih]

/-- The append payloads of a session are exactly the base64-encoded chunks,
in chunk order, whatever the VAD type is. -/
theorem appendPayloads_sendSequence (vadType : String) (bs : List Nat)
    (sr chunkMs : Nat) :
    appendPayloads (sendSequence vadType bs sr chunkMs)
      = (chunkPacer bs sr chunkMs).map b64encode := by
  by_cases h : vadType = "manual" <;>
    simp [sendSequence, h, appendPayloads_append, appendPayloads_map,
      appendPayloads]

/-! ## Receive loop lemmas -/

/-- Processing a prefix of non-`done`, decodable messages just accumulates
the delta texts into the buffer and continues. -/
theorem receiveLoop_append (pre : List InMsg)
    (h1 : ∀ m ∈ pre, isDoneMsg m = false)
    (h2 : ∀ m ∈ pre, isMalformed m = false) :
    ∀ (tail : List InMsg) (full : String),
      receiveLoop (pre ++ tail) full = receiveLoop tail (full ++ deltaConcat pre) := by
  induction pre with
  | nil =>
    intro tail full
    simp [deltaConcat, String.append_empty]
  | cons m rest ih =>
    intro tail full
    cases m with
    | malformed =>
      have := h2 InMsg.malformed (by simp)
      simp [isMalformed] at this
    | event t txt dtxt =>
      have ht : ¬ t = "transcript.done" := by
        have := h1 (InMsg.event t txt dtxt) (by simp)
        simpa [isDoneMsg] using this
      have ih2 := ih (fun m hm => h1 m (by simp [hm])) (fun m hm => h2 m (by simp [hm]))
      by_cases hd : t = "transcript.delta"
      · simp only [List.cons_append, receiveLoop, if_pos hd, deltaConcat, hd, if_true]
        exact (ih2 tail (full ++ extractText txt dtxt)).trans
          (by rw [String.append_assoc])
      · simp only [List.cons_append, receiveLoop, if_neg hd, if_neg ht, deltaConcat,
          if_neg hd]
        rw [String.empty_append]
        exact ih2 tail full

/-! ## Claims -/

/-- C1: for every PCM byte buffer of length L ≥ 1, sample rate R ≥ 1,
channel count 1, bit depth 2 bytes and chunk duration D ms, with
`chunkBytes = max(1, ⌊R·1·2·D/1000⌋)`, the chunk pacer produces exactly
`⌈L / chunkBytes⌉` chunks sliced strictly sequentially with no gaps and no
overlap (their concatenation is the buffer, so the lengths sum to L), each
chunk is ≤ `chunkBytes`, every chunk except possibly the last is exactly
`chunkBytes`; in particular 11 s of 24 kHz mono PCM16 (L = 528000) at
D = 100 gives 110 chunks of 4800 bytes each. -/
theorem chunk_pacer_correct (bs : List Nat) (sr chunkMs : Nat)
    (hL : 1 ≤ bs.length) (hsr : 1 ≤ sr) :
    (chunkPacer bs sr chunkMs).length
        = (bs.length + chunkBytesOf sr chunkMs - 1) / chunkBytesOf sr chunkMs
    ∧ (chunkPacer bs sr chunkMs).flatten = bs
    ∧ (∀ c ∈ chunkPacer bs sr chunkMs, c.length ≤ chunkBytesOf sr chunkMs)
    ∧ (∀ c ∈ (chunkPacer bs sr chunkMs).dropLast, c.length = chunkBytesOf sr chunkMs)
    ∧ (bs.length = 528000 → sr = 24000 → chunkMs = 100 →
        (chunkPacer bs sr chunkMs).length = 110
        ∧ ∀ c ∈ chunkPacer bs sr chunkMs, c.length = 4800) := by
  have hpos := chunkBytesOf_pos sr chunkMs
  have hk : chunkBytesOf sr chunkMs - 1 + 1 = chunkBytesOf sr chunkMs := by omega
  refine ⟨?_, sliceChunks_flatten _ _, ?_, ?_, ?_⟩
  · rw [chunkPacer, sliceChunks_length, hk]
    congr 1
    omega
  · intro c hc
    have := sliceChunks_le (chunkBytesOf sr chunkMs - 1) bs c hc
    omega
  · intro c hc
    have := sliceChunks_dropLast (chunkBytesOf sr chunkMs - 1) bs c hc
    omega
  · intro hlen hsr24 hms
    subst hsr24; subst hms
    have hcb : chunkBytesOf 24000 100 = 4800 := by norm_num [chunkBytesOf]
    have hdvd : (chunkBytesOf 24000 100 - 1 + 1) ∣ bs.length := by
      rw [hcb, hlen]
      norm_num
    constructor
    · rw [chunkPacer, sliceChunks_length, hlen, hcb]
    · intro c hc
      have := sliceChunks_dvd (chunkBytesOf 24000 100 - 1) bs hdvd c hc
      omega

/-- Witness for C1 at a concrete input: a 5-byte buffer at 1000 Hz and
1 ms chunks (chunk size 2). -/
theorem chunk_pacer_correct_witness :
    (chunkPacer [0, 1, 2, 3, 4] 1000 1).flatten = [0, 1, 2, 3, 4]
    ∧ ∀ c ∈ chunkPacer [0, 1, 2, 3, 4] 1000 1, c.length ≤ chunkBytesOf 1000 1 :=
  ⟨(chunk_pacer_correct [0, 1, 2, 3, 4] 1000 1 (by decide) (by decide)).2.1,
   (chunk_pacer_correct [0, 1, 2, 3, 4] 1000 1 (by decide) (by decide)).2.2.1⟩

/-- C2: with VAD policy Manual (the string `"manual"`), the complete
outbound sequence is exactly one `session.update`, one `activity_start`,
one `append` per chunk in chunk order, one `activity_end`, one `commit`,
nothing else and in exactly that order. -/
theorem manual_outbound_sequence (bs : List Nat) (sr chunkMs : Nat) :
    sendSequence "manual" bs sr chunkMs
      = [OutMsg.sessionUpdate Vad.manual, OutMsg.activityStart]
        ++ (chunkPacer bs sr chunkMs).map (fun c => OutMsg.append (b64encode c))
        ++ [OutMsg.activityEnd, OutMsg.commit] := by
  simp [sendSequence, vadOf]

/-- C3: with VAD policy ServerVad (the string `"server_vad"`), the complete
outbound sequence is exactly one `session.update`, one `append` per chunk
in chunk order, one `commit`, and no activity marker is ever sent. -/
theorem server_vad_outbound_sequence (bs : List Nat) (sr chunkMs : Nat) :
    sendSequence "server_vad" bs sr chunkMs
      = [OutMsg.sessionUpdate (Vad.serverVad 500 300)]
        ++ (chunkPacer bs sr chunkMs).map (fun c => OutMsg.append (b64encode c))
        ++ [OutMsg.commit]
    ∧ OutMsg.activityStart ∉ sendSequence "server_vad" bs sr chunkMs
    ∧ OutMsg.activityEnd ∉ sendSequence "server_vad" bs sr chunkMs := by
  refine ⟨?_, ?_, ?_⟩ <;> simp [sendSequence, vadOf]

/-- C4 counterexample: for `VAD_TYPE = "none"` the `session.update` message
carries the manual vad variant, yet no activity marker is sent — the
bracket used is the ServerVad one, contradicting the claim that the
bracket always matches the vad variant carried in `session.update`. -/
theorem vad_bracket_mismatch_cex :
    vadOf "none" = Vad.manual
    ∧ sendSequence "none" [] 24000 100
        = [OutMsg.sessionUpdate Vad.manual, OutMsg.commit]
    ∧ OutMsg.activityStart ∉ sendSequence "none" [] 24000 100 := by
  refine ⟨by decide, ?_, ?_⟩ <;> simp [sendSequence, vadOf, chunkPacer, sliceChunks_nil]

/-- C4 amended: the outbound sequence is always exactly one of the two
bracket disciplines, chosen once per session by the test
`VAD_TYPE == "manual"` (not by the vad variant carried in `session.update`);
the activity markers are present iff `VAD_TYPE = "manual"`, and the two
paths are never mixed. -/
theorem vad_bracket_discipline (vadType : String) (bs : List Nat) (sr chunkMs : Nat) :
    ((OutMsg.activityStart ∈ sendSequence vadType bs sr chunkMs) ↔ vadType = "manual")
    ∧ ((OutMsg.activityEnd ∈ sendSequence vadType bs sr chunkMs) ↔ vadType = "manual")
    ∧ (sendSequence vadType bs sr chunkMs
        = [OutMsg.sessionUpdate (vadOf vadType), OutMsg.activityStart]
          ++ (chunkPacer bs sr chunkMs).map (fun c => OutMsg.append (b64encode c))
          ++ [OutMsg.activityEnd, OutMsg.commit]
      ∨ sendSequence vadType bs sr chunkMs
        = [OutMsg.sessionUpdate (vadOf vadType)]
          ++ (chunkPacer bs sr chunkMs).map (fun c => OutMsg.append (b64encode c))
          ++ [OutMsg.commit]) := by
  by_cases h : vadType = "manual"
  · refine ⟨?_, ?_, Or.inl ?_⟩ <;> simp [sendSequence, h]
  · refine ⟨?_, ?_, Or.inr ?_⟩ <;> simp [sendSequence, h]

/-- C5: for an inbound sequence of decodable, non-`done` events followed by
a `transcript.done` event (and anything after it, which is never read:
exactly one finalization), the final transcript is the concatenation of the
`transcript.delta` texts in arrival order whenever that concatenation is
non-empty; if the buffer is empty and the `Done` text is non-empty, the
`Done` text is the result; otherwise the buffer is the result. -/
theorem transcript_aggregation_correct (pre junk : List InMsg)
    (txt dtxt : Option String)
    (h1 : ∀ m ∈ pre, isDoneMsg m = false)
    (h2 : ∀ m ∈ pre, isMalformed m = false) :
    receiveLoop (pre ++ InMsg.event "transcript.done" txt dtxt :: junk) ""
      = Outcome.completed
          (if deltaConcat pre = "" ∧ extractText txt dtxt ≠ ""
           then extractText txt dtxt else deltaConcat pre) := by
  rw [receiveLoop_append pre h1 h2]
  simp [receiveLoop, String.empty_append]

/-- Witness for C5 at a concrete input: two deltas around a warning,
with a `Done` event whose text is ignored because the buffer is non-empty. -/
theorem transcript_aggregation_correct_witness :
    receiveLoop ([InMsg.event "transcript.delta" (some "he") none,
        InMsg.event "warning" none none,
        InMsg.event "transcript.delta" none (some "llo")]
      ++ InMsg.event "transcript.done" (some "ZZZ") none :: []) ""
      = Outcome.completed "hello" :=
  (transcript_aggregation_correct
      [InMsg.event "transcript.delta" (some "he") none,
        InMsg.event "warning" none none,
        InMsg.event "transcript.delta" none (some "llo")]
      [] (some "ZZZ") none (by decide) (by decide)).trans (by decide)

/-- C6 counterexample: an `error` event arriving before `transcript.done`
does not stop the receive loop and does not fail the session — the loop
continues and the session still completes with the later transcript,
refuting the claim that error events are fatal. -/
theorem error_event_not_fatal_cex :
    receiveLoop [InMsg.event "error" (some "boom") none,
        InMsg.event "transcript.done" (some "hi") none] ""
      = Outcome.completed "hi" := by
  decide

/-- C6 amended: in the code an inbound `error` event is informational
only — it is printed and skipped, the receive loop continues with the
transcript buffer unchanged, and the session outcome is whatever the
remaining events produce. -/
theorem error_event_skipped (txt dtxt : Option String) (rest : List InMsg)
    (full : String) :
    receiveLoop (InMsg.event "error" txt dtxt :: rest) full
      = receiveLoop rest full := by
  rw [receiveLoop]
  rw [if_neg (by decide : ¬ ("error" = "transcript.delta")),
    if_neg (by decide : ¬ ("error" = "transcript.done"))]

/-- C7 counterexample: a message that fails JSON decoding terminates the
receive loop — the `transcript.done` right after it is never processed
and the loop ends by an uncaught exception, refuting the claim that
malformed inbound messages never terminate the loop. -/
theorem malformed_terminates_cex :
    receiveLoop [InMsg.malformed, InMsg.event "transcript.done" (some "x") none] ""
      = Outcome.crashed "" := by
  decide

/-- C7 amended: an inbound event with an unknown `type` tag is skipped —
the loop continues with the next message and the accumulated buffer is
unchanged; but a message that is not decodable as JSON raises an uncaught
`json.JSONDecodeError` that terminates the receive loop. -/
theorem unknown_type_skipped (t : String) (txt dtxt : Option String)
    (rest : List InMsg) (full : String)
    (hd : t ≠ "transcript.delta") (hn : t ≠ "transcript.done") :
    receiveLoop (InMsg.event t txt dtxt :: rest) full = receiveLoop rest full := by
  rw [receiveLoop, if_neg hd, if_neg hn]

/-- Witness for C7 (amended) at a concrete input. -/
theorem unknown_type_skipped_witness :
    receiveLoop [InMsg.event "mystery.tag" (some "zzz") none] ""
      = receiveLoop [] "" :=
  unknown_type_skipped "mystery.tag" (some "zzz") none [] ""
    (by decide) (by decide)

/-- C8: when the transport closes before any `transcript.done` arrives
(the inbound list contains no `done` event), the session never reports a
successful completion, regardless of how many deltas were received: the
outcome is the `closed` (or `crashed`) failure branch, never `completed`. -/
theorem close_before_done_not_completed (msgs : List InMsg)
    (h : ∀ m ∈ msgs, isDoneMsg m = false) :
    ∀ full, (receiveLoop msgs full).isCompleted = false := by
  induction msgs with
  | nil => intro full; rfl
  | cons m rest ih =>
    intro full
    cases m with
    | malformed => rfl
    | event t txt dtxt =>
      have ht : ¬ t = "transcript.done" := by
        have := h (InMsg.event t txt dtxt) (by simp)
        simpa [isDoneMsg] using this
      have hrest : ∀ m ∈ rest, isDoneMsg m = false := fun m hm => h m (by simp [hm])
      by_cases hd : t = "transcript.delta"
      · rw [receiveLoop, if_pos hd]
        exact ih hrest _
      · rw [receiveLoop, if_neg hd, if_neg ht]
        exact ih hrest _

/-- Witness for C8 at a concrete input: a delta followed by transport close. -/
theorem close_before_done_not_completed_witness :
    (receiveLoop [InMsg.event "transcript.delta" (some "partial text") none] "").isCompleted
      = false :=
  close_before_done_not_completed
    [InMsg.event "transcript.delta" (some "partial text") none] (by decide) ""

/-- C9 counterexample: on an event with a present-but-empty top-level
`text` field and `data.text = "hi"`, the code extracts `"hi"` while the
claim's rule (top-level `text` takes precedence whenever present) yields
`""` — the claim fails on the code. -/
theorem text_field_precedence_cex :
    extractText (some "") (some "hi") = "hi"
    ∧ claimExtract (some "") (some "hi") = ""
    ∧ extractText (some "") (some "hi") ≠ claimExtract (some "") (some "hi") := by
  decide

/-- C9 amended: the extracted text is the top-level `text` field when
present AND non-empty, otherwise `data.text` when present AND non-empty,
otherwise the empty string (Python truthiness: an empty or missing
top-level `text` falls through to `data.text`). -/
theorem extract_text_truthy (txt dtxt : Option String) :
    extractText txt dtxt = amendedExtract txt dtxt := by
  cases txt with
  | none =>
    cases dtxt with
    | none => rfl
    | some u => by_cases hu : u = "" <;> simp [extractText, pyOr, amendedExtract, hu]
  | some t =>
    cases dtxt with
    | none => by_cases ht : t = "" <;> simp [extractText, pyOr, amendedExtract, ht]
    | some u =>
      by_cases ht : t = "" <;> by_cases hu : u = "" <;>
        simp [extractText, pyOr, amendedExtract, ht, hu]

/-- C10: base64-decoding the `audio` payload of each outbound
`input_audio.append` message of a session and concatenating the results in
send order restores exactly the original PCM byte buffer — the
chunking-plus-base64 pipeline is lossless. -/
theorem audio_payload_roundtrip (vadType : String) (bs : List Nat)
    (sr chunkMs : Nat) (hb : ∀ b ∈ bs, b < 256) :
    ((appendPayloads (sendSequence vadType bs sr chunkMs)).map b64decode).flatten
      = bs := by
  rw [appendPayloads_sendSequence, List.map_map]
  have h : ∀ c ∈ chunkPacer bs sr chunkMs, (b64decode ∘ b64encode) c = id c := by
    intro c hc
    refine b64decode_encode c (fun x hx => hb x ?_)
    have hj : x ∈ (chunkPacer bs sr chunkMs).flatten := List.mem_flatten.mpr ⟨c, hc, hx⟩
    rwa [chunkPacer, sliceChunks_flatten] at hj
  rw [List.map_congr_left h, List.map_id, chunkPacer, sliceChunks_flatten]

/-- Witness for C10 at a concrete input: a 5-byte buffer (chunks of 2
bytes, so both padded and unpadded base64 groups occur). -/
theorem audio_payload_roundtrip_witness :
    ((appendPayloads (sendSequence "manual" [7, 200, 3, 0, 255] 1000 1)).map
        b64decode).flatten
      = [7, 200, 3, 0, 255] :=
  audio_payload_roundtrip "manual" [7, 200, 3, 0, 255] 1000 1 (by decide)

end RT
